import Mathlib

/-!
Shallow embedding of the smproduct-scraper repository
(src/scrape-sm.js and src/convert-to-csv.js).

Strings are modelled by Lean `String`; JavaScript numbers produced by
`parseFloat` are modelled as exact rationals (`Rat`).  On every input
relevant to the claims the cleaned price string is a short decimal
literal, where `parseFloat` agrees with the exact rational value.
File-system effects are modelled by explicit file states: the JSON
output file is either absent, unparseable, or holds a parsed document.
-/

namespace SMScraper

/-- Characters matched by the JavaScript regex `\s` on the inputs that
occur in this development (ASCII whitespace). -/
def jsWhitespace (c : Char) : Bool :=
  c = ' ' || c = '\t' || c = '\n' || c = '\r' || c = '\x0b' || c = '\x0c'

/-- Replace each maximal run of whitespace by a single space, as in the
JavaScript `String.replace(/\s+/g, " ")`.  The boolean flag records
whether the previous character belonged to a whitespace run. -/
def collapseWsAux : Bool → List Char → List Char
  | _, [] => []
  | prevWs, c :: rest =>
    if jsWhitespace c then
      if prevWs then collapseWsAux true rest
      else ' ' :: collapseWsAux true rest
    else c :: collapseWsAux false rest

/-- Drop leading and trailing spaces, as in the JavaScript `trim()`
applied after whitespace collapsing (only plain spaces remain). -/
def trimSpaces (l : List Char) : List Char :=
  ((l.dropWhile (fun c => c = ' ')).reverse.dropWhile (fun c => c = ' ')).reverse

/-- Embeds `sanitizeText` of scrape-sm.js (lines 34-37) and
convert-to-csv.js (lines 21-24): falsy input gives the empty string,
otherwise runs of whitespace collapse to one space and the result is
trimmed. -/
def sanitizeText (s : String) : String :=
  if s = "" then ""
  else String.mk (trimSpaces (collapseWsAux false s.data))

/-- Characters kept by the regex `[^0-9.,]` deletion in `parsePrice`. -/
def isPriceChar (c : Char) : Bool :=
  c.isDigit || c = '.' || c = ','

/-- Value of a list of decimal digit characters. -/
def digitsToNat (ds : List Char) : Nat :=
  ds.foldl (fun n c => 10 * n + (c.toNat - 48)) 0

/-- JavaScript `parseFloat` restricted to strings over digits and dots
(the only characters left after `parsePrice` cleans its input): the
longest leading `digits [. digits]` span is parsed; when that span
contains no digit the result is NaN, modelled as `none`. -/
def jsParseFloatDigits (cs : List Char) : Option Rat :=
  let intPart := cs.takeWhile Char.isDigit
  let rest := cs.dropWhile Char.isDigit
  let fracPart :=
    if rest.head? = some '.' then (rest.drop 1).takeWhile Char.isDigit else []
  if intPart.isEmpty && fracPart.isEmpty then none
  else some ((digitsToNat intPart : Rat) +
    (digitsToNat fracPart : Rat) / (10 : Rat) ^ fracPart.length)

/-- Embeds `parsePrice` of scrape-sm.js (lines 39-44) and
convert-to-csv.js (lines 26-31): falsy input gives null; otherwise all
characters other than digits, dots and commas are removed, then commas
are removed, and the result is parsed with `parseFloat`; a non-finite
parse gives null. -/
def parsePrice (s : String) : Option Rat :=
  if s = "" then none
  else jsParseFloatDigits ((s.data.filter isPriceChar).filter (fun c => c ≠ ','))

/-- A raw product record as returned by `scrapeCategory` page
evaluation (scrape-sm.js lines 250-267). -/
structure RawProduct where
  name : String
  url : String
  uom : String
  priceText : String
  weightedPriceText : String
  image : String
deriving DecidableEq

/-- A persisted product record (scrape-sm.js `normalizeProduct`,
lines 292-304). -/
structure Product where
  name : String
  url : String
  uom : String
  price : Option Rat
  priceText : String
  weightedPriceText : String
  image : String
  scrapedAt : String
  sourceUrl : String
deriving DecidableEq

/-- Embeds `normalizeProduct` (scrape-sm.js lines 292-304).  Both
callers always pass a timestamp, so the `scrapeTimestamp || new Date()`
fallback is never taken and the timestamp is an explicit argument. -/
def normalizeProduct (p : RawProduct) (sourceUrl scrapeTimestamp : String) : Product :=
  { name := sanitizeText p.name
    url := p.url
    uom := sanitizeText p.uom
    price := parsePrice p.priceText
    priceText := sanitizeText p.priceText
    weightedPriceText := sanitizeText p.weightedPriceText
    image := p.image
    scrapedAt := scrapeTimestamp
    sourceUrl := sourceUrl }

/-- Metadata block of the output document (scrape-sm.js lines 324-331
and 353-359).  `lastSavedAt` and `completed` are optional fields. -/
structure Metadata where
  sourceUrl : String
  scrapedAt : String
  totalProducts : Nat
  lastSavedAt : Option String
  completed : Option Bool
deriving DecidableEq

/-- The JSON output document `{metadata, products}`. -/
structure OutputDoc where
  metadata : Metadata
  products : List Product
deriving DecidableEq

/-- State of the JSON output file on disk: missing, present but not
parseable as JSON, or a parsed document. -/
inductive FileState where
  | absent
  | corrupt
  | written (doc : OutputDoc)
deriving DecidableEq

/-- Embeds `loadExistingProducts` (scrape-sm.js lines 281-290): a
missing file and a file whose contents fail to parse both yield the
empty list; otherwise the document's products list is returned. -/
def loadExistingProducts : FileState → List Product
  | .absent => []
  | .corrupt => []
  | .written d => d.products

/-- The truthiness filter `p.name && p.url` applied before
normalization in `saveProductsIncremental` and `writeFinalOutput`. -/
def validRaw (p : RawProduct) : Bool :=
  p.name ≠ "" && p.url ≠ ""

/-- The `products.filter(p => p.name && p.url).map(normalizeProduct)`
pipeline shared by `saveProductsIncremental` (lines 312-314) and
`writeFinalOutput` (lines 349-351). -/
def normalizeBatch (products : List RawProduct) (sourceUrl ts : String) : List Product :=
  (products.filter validRaw).map (fun p => normalizeProduct p sourceUrl ts)

/-- Url projection of a persisted product list. -/
def urlsOf (l : List Product) : List String :=
  l.map Product.url

/-- Embeds `saveProductsIncremental` (scrape-sm.js lines 306-344): the
batch is filtered and normalized, the existing file is loaded, records
whose url already occurs on disk are dropped, the remainder is appended
and the whole document is rewritten.  The returned document is the new
file contents. -/
def saveProductsIncremental (products : List RawProduct) (sourceUrl ts : String)
    (file : FileState) : OutputDoc :=
  let normalized := normalizeBatch products sourceUrl ts
  let existing := loadExistingProducts file
  let existingUrls := urlsOf existing
  let newProducts := normalized.filter (fun p => !(existingUrls.contains p.url))
  let allProducts := existing ++ newProducts
  { metadata :=
      { sourceUrl := sourceUrl
        scrapedAt := ts
        totalProducts := allProducts.length
        lastSavedAt := some ts
        completed := none }
    products := allProducts }

/-- Embeds `writeFinalOutput` (scrape-sm.js lines 346-368): the final
batch is filtered and normalized and the document is rewritten with
exactly those records, ignoring any previous file contents, with
`completed: true` in the metadata. -/
def writeFinalOutput (products : List RawProduct) (sourceUrl ts : String) : OutputDoc :=
  let normalized := normalizeBatch products sourceUrl ts
  { metadata :=
      { sourceUrl := sourceUrl
        scrapedAt := ts
        totalProducts := normalized.length
        lastSavedAt := none
        completed := some true }
    products := normalized }

/-- One call to `saveProductsIncremental`: the extracted batch together
with the source url and the timestamp taken at that call. -/
structure SaveCall where
  batch : List RawProduct
  sourceUrl : String
  ts : String

/-- A sequence of incremental saves, each writing the document that the
next call reads back; this models any number of (possibly interrupted)
runs, since only completed writes reach the disk. -/
def runSaves : List SaveCall → FileState → FileState
  | [], f => f
  | c :: rest, f =>
      runSaves rest (.written (saveProductsIncremental c.batch c.sourceUrl c.ts f))

/-- First-occurrence deduplication by url, with an accumulator of urls
already seen.  This is the specification-side notion used to state the
url-deduplicated union of the spec's testable property. -/
def dedupByUrlAux (seen : List String) : List Product → List Product
  | [] => []
  | p :: rest =>
    if seen.contains p.url then dedupByUrlAux seen rest
    else p :: dedupByUrlAux (p.url :: seen) rest

/-- First-occurrence url-deduplication of a product list. -/
def dedupByUrl (l : List Product) : List Product :=
  dedupByUrlAux [] l

/-- Loop state of `loadAllProducts` (scrape-sm.js lines 137-138):
`previousCount`, which starts at -1, and `stableIterations`. -/
structure ScrollState where
  prev : Int
  stable : Nat
deriving DecidableEq

/-- One iteration of the stabilization bookkeeping of `loadAllProducts`
(lines 208-219): when the measured count did not exceed the previous
one the stability counter is incremented, otherwise it resets to 0; the
previous count becomes the current one. -/
def scrollStep (current : Nat) (s : ScrollState) : ScrollState :=
  if (current : Int) ≤ s.prev then { prev := (current : Int), stable := s.stable + 1 }
  else { prev := (current : Int), stable := 0 }

/-- The `for (let i = 0; i < 500; i++)` scroll loop of
`loadAllProducts` (lines 154-220), abstracted over the sequence
`counts` of product counts measured at each iteration.  The fuel equals
the number of remaining iterations; the result is the number of
iterations executed (the loop breaks right after the stability counter
reaches `maxStable = 6`). -/
def scrollLoop (counts : Nat → Nat) : Nat → Nat → ScrollState → Nat
  | 0, i, _ => i
  | fuel+1, i, s =>
    let s1 := scrollStep (counts i) s
    if 6 ≤ s1.stable then i + 1
    else scrollLoop counts fuel (i+1) s1

/-- Number of iterations executed by the scroll loop of
`loadAllProducts` for a given sequence of measured counts. -/
def scrollIterations (counts : Nat → Nat) : Nat :=
  scrollLoop counts 500 0 { prev := -1, stable := 0 }

/-- Length of the run of consecutive non-increasing measurements ending
at iteration `k`: iteration `k+1` extends the run when its count does
not exceed the count of iteration `k`.  Iteration 0 never extends a run
because `previousCount` starts at -1, below any count. -/
def runLen (counts : Nat → Nat) : Nat → Nat
  | 0 => 0
  | k+1 => if counts (k+1) ≤ counts k then runLen counts k + 1 else 0

/-- Loop state reached after iteration `i-1` of the scroll loop (so
`stateAt counts 0` is the initial state). -/
def stateAt (counts : Nat → Nat) : Nat → ScrollState
  | 0 => { prev := -1, stable := 0 }
  | i+1 => scrollStep (counts i) (stateAt counts i)

/-- Scroll pulses issued by `autoScroll` (scrape-sm.js lines 46-104) in
the fallback branch taken when the container selector matches nothing:
each loop iteration issues one window-scroll pulse and the loop breaks
once the measured body height equals the previous one. -/
def fallbackPulses (heights : Nat → Nat) : Nat → Nat → Nat → Nat
  | 0, _, _ => 0
  | fuel+1, i, prevHeight =>
    1 + (if heights i = prevHeight then 0 else fallbackPulses heights fuel (i+1) (heights i))

/-- Number of scroll pulses (page evaluations dispatching scroll
events) issued by one `autoScroll` call: with the scroll container
present the inner loop runs exactly `maxScrolls` times; without it the
fallback loop runs until the body height stabilizes, at most
`maxScrolls` times. -/
def autoScrollPulses (hasContainer : Bool) (heights : Nat → Nat) (maxScrolls : Nat) : Nat :=
  if hasContainer then maxScrolls else fallbackPulses heights maxScrolls 0 0

/-- A parsed JSON document as read by convert-to-csv.js: the `products`
field may be missing (`jsonData.products || []`). -/
structure ConvDoc where
  products : Option (List Product)
deriving DecidableEq

/-- State of the JSON input file of the CSV converter. -/
inductive JsonInput where
  | missing
  | doc (d : ConvDoc)
deriving DecidableEq

/-- The products list the converter works on: empty for a missing file,
otherwise the document's products with the `|| []` fallback. -/
def convProducts : JsonInput → List Product
  | .missing => []
  | .doc d => d.products.getD []

/-- Result of running `convertJsonToCsv`: either the process exits with
status 1 before any CSV write, or a CSV file is written holding exactly
the given rows. -/
inductive ConvertResult where
  | exitError
  | wroteCsv (rows : List Product)
deriving DecidableEq

/-- The per-row normalization of convert-to-csv.js (lines 51-61),
restricted to documents written by the scraper, in which every field is
present (so each `||` and `!== undefined` fallback keeps the stored
value). -/
def csvRow (p : Product) : Product :=
  { name := sanitizeText p.name
    url := p.url
    uom := sanitizeText p.uom
    price := p.price
    priceText := sanitizeText p.priceText
    weightedPriceText := sanitizeText p.weightedPriceText
    image := p.image
    scrapedAt := p.scrapedAt
    sourceUrl := p.sourceUrl }

/-- Embeds `convertJsonToCsv` (convert-to-csv.js lines 33-81): exit
with status 1 when the JSON file does not exist; exit with status 1
when the (defaulted) products list is empty; otherwise normalize each
row and write the CSV file. -/
def convertJsonToCsv (input : JsonInput) : ConvertResult :=
  match input with
  | .missing => .exitError
  | .doc d =>
    let products := d.products.getD []
    if products.length = 0 then .exitError
    else .wroteCsv (products.map csvRow)

/-- Concrete record used in counterexamples: url `u`, name `a`. -/
def dupA : RawProduct :=
  { name := "a", url := "u", uom := "", priceText := "", weightedPriceText := "", image := "" }

/-- Concrete record used in counterexamples: the same url `u` as
`dupA` but a different name. -/
def dupB : RawProduct :=
  { name := "b", url := "u", uom := "", priceText := "", weightedPriceText := "", image := "" }

/-- Concrete record with a distinct url `v`, used in witnesses. -/
def recC : RawProduct :=
  { name := "c", url := "v", uom := "", priceText := "", weightedPriceText := "", image := "" }

/-- Concrete record whose url contains un-collapsed whitespace. -/
def wsUrl : RawProduct :=
  { name := "n", url := "  a   b ", uom := "", priceText := "", weightedPriceText := "", image := "" }

/-- A constant measurement sequence: the product count never grows, so
the scroll loop stabilizes after 6 counted iterations. -/
def constZero : Nat → Nat := fun _ => 0

theorem urlsOf_append (l₁ l₂ : List Product) :
    urlsOf (l₁ ++ l₂) = urlsOf l₁ ++ urlsOf l₂ :=
  List.map_append _ _ _

theorem normalizeProduct_url (p : RawProduct) (su ts : String) :
    (normalizeProduct p su ts).url = p.url := rfl

theorem urlsOf_normalizeBatch (b : List RawProduct) (su ts : String) :
    urlsOf (normalizeBatch b su ts) = (b.filter validRaw).map RawProduct.url := by
  unfold urlsOf normalizeBatch
  rw [List.map_map]
  rfl

theorem save_products_eq (b : List RawProduct) (su ts : String) (f : FileState) :
    (saveProductsIncremental b su ts f).products
      = loadExistingProducts f ++
        (normalizeBatch b su ts).filter
          (fun p => !((urlsOf (loadExistingProducts f)).contains p.url)) := rfl

/-- C2 (amended): `saveProductsIncremental` keeps every previously
persisted record unchanged and in place, appending only records whose
url is new; `writeFinalOutput`, by contrast, rewrites the file with
exactly the normalized final batch, ignoring the previous contents. -/
theorem c2_incremental_preserves_persisted (b : List RawProduct) (su ts : String)
    (f : FileState) :
    (∃ tail, (saveProductsIncremental b su ts f).products = loadExistingProducts f ++ tail
      ∧ ∀ r ∈ tail, r.url ∉ urlsOf (loadExistingProducts f))
    ∧ (writeFinalOutput b su ts).products = normalizeBatch b su ts := by
  refine ⟨⟨(normalizeBatch b su ts).filter
      (fun p => !((urlsOf (loadExistingProducts f)).contains p.url)), rfl, ?_⟩, rfl⟩
  intro r hr
  have h := List.of_mem_filter hr
  simpa using h

/-- C2 counterexample: a record with url `u` is persisted by a save,
yet the later final write of a run with a batch that no longer contains
that url produces a file without any record of url `u`, so the claim
that every later write keeps a persisted record present is false. -/
theorem c2_final_write_drops_record_cex :
    (∃ r ∈ (saveProductsIncremental [dupA] "s" "t1" FileState.absent).products, r.url = "u")
    ∧ ¬ ∃ r ∈ (writeFinalOutput [] "s" "t2").products, r.url = "u" := by
  constructor
  · exact ⟨normalizeProduct dupA "s" "t1", by decide, by decide⟩
  · intro ⟨r, hr, _⟩
    simp [writeFinalOutput, normalizeBatch] at hr

/-- C4: saving the same batch twice in a row adds no record and leaves
the file's products list, record for record, unchanged. -/
theorem c4_save_idempotent (S : List RawProduct) (su t1 t2 : String) (f : FileState) :
    (saveProductsIncremental S su t2
        (.written (saveProductsIncremental S su t1 f))).products
      = (saveProductsIncremental S su t1 f).products := by
  have hnil : (normalizeBatch S su t2).filter
      (fun p => !((urlsOf (saveProductsIncremental S su t1 f).products).contains p.url)) = [] := by
    rw [List.filter_eq_nil_iff]
    intro p hp
    suffices h : p.url ∈ urlsOf (saveProductsIncremental S su t1 f).products by
      simpa using h
    obtain ⟨q, hq, rfl⟩ := List.mem_map.mp hp
    rw [normalizeProduct_url]
    rw [save_products_eq, urlsOf_append]
    by_cases hc : q.url ∈ urlsOf (loadExistingProducts f)
    · exact List.mem_append_left _ hc
    · refine List.mem_append_right _ ?_
      have hq1 : normalizeProduct q su t1 ∈ normalizeBatch S su t1 :=
        List.mem_map.mpr ⟨q, hq, rfl⟩
      have hcontains : ((urlsOf (loadExistingProducts f)).contains q.url) = false := by
        simpa using hc
      refine List.mem_map.mpr ⟨normalizeProduct q su t1, ?_, rfl⟩
      exact List.mem_filter.mpr ⟨hq1, by simpa [normalizeProduct_url] using hc⟩
  rw [save_products_eq (f := .written (saveProductsIncremental S su t1 f))]
  rw [show loadExistingProducts (.written (saveProductsIncremental S su t1 f))
        = (saveProductsIncremental S su t1 f).products from rfl]
  rw [hnil, List.append_nil]

theorem takeWhile_isDigit_nil (l : List Char) (hl : ∀ c ∈ l, c.isDigit = false) :
    l.takeWhile Char.isDigit = [] := by
  cases l with
  | nil => rfl
  | cons c rest =>
    rw [List.takeWhile_cons]
    simp [hl c (List.mem_cons_self c rest)]

theorem jsParseFloat_no_digit (cs : List Char) (h : ∀ c ∈ cs, c.isDigit = false) :
    jsParseFloatDigits cs = none := by
  have hdrop : cs.dropWhile Char.isDigit = cs := by
    cases cs with
    | nil => rfl
    | cons c rest =>
      rw [List.dropWhile_cons]
      simp [h c (List.mem_cons_self c rest)]
  unfold jsParseFloatDigits
  rw [takeWhile_isDigit_nil cs h, hdrop]
  dsimp only
  have hfrac : (if cs.head? = some '.' then (cs.drop 1).takeWhile Char.isDigit else []) = [] := by
    split
    · exact takeWhile_isDigit_nil _ (fun c hc => h c (List.mem_of_mem_drop hc))
    · rfl
  rw [hfrac]
  rfl

/-- C7: `parsePrice` maps the four concrete inputs of the spec to 125,
1250.5, null and null respectively, and in general returns null on any
input containing no digit at all (no finite number can result). -/
theorem c7_parsePrice_values :
    parsePrice "₱125" = some 125
    ∧ parsePrice "₱1,250.50" = some (1250.5 : Rat)
    ∧ parsePrice "" = none
    ∧ parsePrice "N/A" = none
    ∧ ∀ s : String, (∀ c ∈ s.data, c.isDigit = false) → parsePrice s = none := by
  refine ⟨?_, ?_, rfl, rfl, ?_⟩
  · rw [show parsePrice "₱125" = some ((125 : Rat) + (0 : Rat) / (10 : Rat) ^ (0 : Nat)) from rfl]
    norm_num
  · rw [show parsePrice "₱1,250.50"
        = some ((1250 : Rat) + (50 : Rat) / (10 : Rat) ^ (2 : Nat)) from rfl]
    norm_num
  · intro s hs
    unfold parsePrice
    split
    · rfl
    · apply jsParseFloat_no_digit
      intro c hc
      exact hs c (List.mem_of_mem_filter (List.mem_of_mem_filter hc))

/-- C7 witness: the digit-free input `abc` parses to null, by the last
clause of the theorem. -/
theorem c7_parsePrice_values_witness : parsePrice "abc" = none :=
  c7_parsePrice_values.2.2.2.2 "abc" (by decide)

/-- C8: every intermediate incremental save writes a metadata object
whose `completed` field is absent, while the final write of a run sets
`completed` to true. -/
theorem c8_completed_only_final (b b2 : List RawProduct) (su su2 ts ts2 : String)
    (f : FileState) :
    (saveProductsIncremental b su ts f).metadata.completed = none
    ∧ (writeFinalOutput b2 su2 ts2).metadata.completed = some true :=
  ⟨rfl, rfl⟩

/-- C9 (amended): `normalizeProduct` whitespace-normalizes the text
fields `name`, `uom`, `priceText` and `weightedPriceText`, while `url`
and `image` are passed through unchanged; and `sanitizeText` collapses
whitespace runs and trims as claimed. -/
theorem c9_normalized_text_fields (p : RawProduct) (su ts : String) :
    (normalizeProduct p su ts).name = sanitizeText p.name
    ∧ (normalizeProduct p su ts).uom = sanitizeText p.uom
    ∧ (normalizeProduct p su ts).priceText = sanitizeText p.priceText
    ∧ (normalizeProduct p su ts).weightedPriceText = sanitizeText p.weightedPriceText
    ∧ (normalizeProduct p su ts).url = p.url
    ∧ (normalizeProduct p su ts).image = p.image
    ∧ sanitizeText "  a   b\n c " = "a b c" :=
  ⟨rfl, rfl, rfl, rfl, rfl, rfl, by rfl⟩

/-- C9 counterexample: a record whose url carries runs of whitespace is
persisted with that url unchanged, so the persisted url differs from
its whitespace-normalized form: not all text fields of a persisted
record are whitespace-normalized. -/
theorem c9_url_not_sanitized_cex :
    (saveProductsIncremental [wsUrl] "s" "t" FileState.absent).products
      = [normalizeProduct wsUrl "s" "t"]
    ∧ (normalizeProduct wsUrl "s" "t").url ≠ sanitizeText (normalizeProduct wsUrl "s" "t").url :=
  ⟨by decide, by decide⟩

/-- C6: the CSV conversion exits with status 1 before any CSV file is
written exactly when the input JSON file is missing or its (defaulted)
products list has zero entries; in every other case these checks pass
and the CSV file is written. -/
theorem c6_convert_exit_iff (input : JsonInput) :
    convertJsonToCsv input = ConvertResult.exitError
      ↔ input = JsonInput.missing ∨ convProducts input = [] := by
  cases input with
  | missing => simp [convertJsonToCsv, convProducts]
  | doc d =>
    by_cases h : (d.products.getD []).length = 0
    · simp [convertJsonToCsv, convProducts, h, List.length_eq_zero.mp h]
    · have h2 : d.products.getD [] ≠ [] := by
        intro he
        exact h (by rw [he]; rfl)
      simp [convertJsonToCsv, convProducts, h, h2]

theorem urlsOf_filter_contains (seen : List String) (l : List Product) :
    urlsOf (l.filter (fun p => !(seen.contains p.url)))
      = (urlsOf l).filter (fun u => !(seen.contains u)) := by
  induction l with
  | nil => rfl
  | cons p rest ih =>
    cases hq : seen.contains p.url with
    | true =>
      rw [List.filter_cons_of_neg (by simp_all),
        show urlsOf (p :: rest) = p.url :: urlsOf rest from rfl,
        List.filter_cons_of_neg (by simp_all)]
      exact ih
    | false =>
      rw [List.filter_cons_of_pos (by simp_all),
        show urlsOf (p :: rest) = p.url :: urlsOf rest from rfl,
        List.filter_cons_of_pos (by simp_all),
        show urlsOf (p :: rest.filter (fun p => !(seen.contains p.url)))
          = p.url :: urlsOf (rest.filter (fun p => !(seen.contains p.url))) from rfl,
        ih]

theorem save_urls_nodup (b : List RawProduct) (su ts : String) (f : FileState)
    (hb : ((b.filter validRaw).map RawProduct.url).Nodup)
    (hf : (urlsOf (loadExistingProducts f)).Nodup) :
    (urlsOf (saveProductsIncremental b su ts f).products).Nodup := by
  rw [save_products_eq, urlsOf_append, List.nodup_append]
  refine ⟨hf, ?_, ?_⟩
  · rw [urlsOf_filter_contains, urlsOf_normalizeBatch]
    exact hb.filter _
  · intro u hu1 hu2
    rw [urlsOf_filter_contains] at hu2
    have h := List.of_mem_filter hu2
    simp only [Bool.not_eq_true'] at h
    have : u ∉ urlsOf (loadExistingProducts f) := by simpa using h
    exact this hu1

theorem runSaves_urls_nodup : ∀ (calls : List SaveCall) (f : FileState),
    (∀ c ∈ calls, ((c.batch.filter validRaw).map RawProduct.url).Nodup) →
    (urlsOf (loadExistingProducts f)).Nodup →
    (urlsOf (loadExistingProducts (runSaves calls f))).Nodup := by
  intro calls
  induction calls with
  | nil => intro f _ hf; exact hf
  | cons c rest ih =>
    intro f hb hf
    exact ih (.written (saveProductsIncremental c.batch c.sourceUrl c.ts f))
      (fun c2 h2 => hb c2 (List.mem_cons_of_mem _ h2))
      (save_urls_nodup _ _ _ _ (hb c (List.mem_cons_self c rest)) hf)

/-- C1 (amended): across any sequence of incremental saves starting
from an absent file, the persisted products list contains at most one
record per distinct url, provided each saved batch itself contains at
most one record per url after the name/url validity filter.  (When a
single batch contains two records with the same url, both are appended:
see the counterexample.) -/
theorem c1_url_unique_invariant (calls : List SaveCall)
    (hb : ∀ c ∈ calls, ((c.batch.filter validRaw).map RawProduct.url).Nodup) :
    (urlsOf (loadExistingProducts (runSaves calls FileState.absent))).Nodup :=
  runSaves_urls_nodup calls .absent hb (by simp [loadExistingProducts, urlsOf])

/-- C1 witness: two saves, the second overlapping the first by url,
leave a file whose urls are pairwise distinct. -/
theorem c1_url_unique_invariant_witness :
    (urlsOf (loadExistingProducts (runSaves
      [⟨[dupA], "s", "t1"⟩, ⟨[dupA, recC], "s", "t2"⟩] FileState.absent))).Nodup :=
  c1_url_unique_invariant _ (by decide)

/-- C1 counterexample: a single batch holding two records with the same
url `u` is persisted with both records, so the file contains two
records for one distinct url and the claimed invariant fails. -/
theorem c1_duplicate_in_batch_cex :
    urlsOf (loadExistingProducts
        (runSaves [⟨[dupA, dupB], "s", "t"⟩] FileState.absent)) = ["u", "u"]
    ∧ ¬ (urlsOf (loadExistingProducts
        (runSaves [⟨[dupA, dupB], "s", "t"⟩] FileState.absent))).Nodup :=
  ⟨by decide, by decide⟩

theorem dedupByUrlAux_cons (seen : List String) (p : Product) (rest : List Product) :
    dedupByUrlAux seen (p :: rest)
      = if seen.contains p.url then dedupByUrlAux seen rest
        else p :: dedupByUrlAux (p.url :: seen) rest := rfl

theorem urlsOf_cons (p : Product) (rest : List Product) :
    urlsOf (p :: rest) = p.url :: urlsOf rest := rfl

theorem dedupByUrlAux_skip (L : List Product) : ∀ (M : List Product) (seen : List String),
    (∀ p ∈ L, seen.contains p.url = true) →
    dedupByUrlAux seen (L ++ M) = dedupByUrlAux seen M := by
  induction L with
  | nil => intro M seen _; rfl
  | cons p rest ih =>
    intro M seen h
    rw [List.cons_append, dedupByUrlAux_cons, if_pos (h p (List.mem_cons_self p rest))]
    exact ih M seen (fun q hq => h q (List.mem_cons_of_mem _ hq))

theorem dedupByUrlAux_fresh (L : List Product) : ∀ (M : List Product) (seen : List String),
    (∀ p ∈ L, seen.contains p.url = false) →
    (urlsOf L).Nodup →
    dedupByUrlAux seen (L ++ M) = L ++ dedupByUrlAux ((urlsOf L).reverse ++ seen) M := by
  induction L with
  | nil => intro M seen _ _; rfl
  | cons p rest ih =>
    intro M seen hfresh hnodup
    rw [urlsOf_cons] at hnodup
    have hnd : (urlsOf rest).Nodup := hnodup.of_cons
    have hnotmem : p.url ∉ urlsOf rest := (List.nodup_cons.mp hnodup).1
    have hf : ∀ q ∈ rest, (p.url :: seen).contains q.url = false := by
      intro q hq
      have hqne : q.url ≠ p.url := by
        intro he
        exact hnotmem (he ▸ List.mem_map.mpr ⟨q, hq, rfl⟩)
      show (q.url == p.url || seen.contains q.url) = false
      rw [hfresh q (List.mem_cons_of_mem _ hq), beq_eq_false_iff_ne.mpr hqne]
      rfl
    rw [List.cons_append, dedupByUrlAux_cons,
      if_neg (by simp_all),
      ih M (p.url :: seen) hf hnd]
    have hseen : (urlsOf rest).reverse ++ (p.url :: seen)
        = (urlsOf (p :: rest)).reverse ++ seen := by
      rw [urlsOf_cons, List.reverse_cons, List.append_assoc]
      rfl
    rw [hseen, List.cons_append]

theorem dedupByUrlAux_filter (M : List Product) : ∀ (seen : List String), (urlsOf M).Nodup →
    dedupByUrlAux seen M = M.filter (fun p => !(seen.contains p.url)) := by
  induction M with
  | nil => intro _ _; rfl
  | cons p rest ih =>
    intro seen hnodup
    rw [urlsOf_cons] at hnodup
    have hnd : (urlsOf rest).Nodup := hnodup.of_cons
    have hnotmem : p.url ∉ urlsOf rest := (List.nodup_cons.mp hnodup).1
    rw [dedupByUrlAux_cons]
    cases hc : seen.contains p.url with
    | true =>
      rw [if_pos rfl, List.filter_cons_of_neg (by simp_all)]
      exact ih seen hnd
    | false =>
      rw [if_neg (by simp), List.filter_cons_of_pos (by simp_all),
        ih (p.url :: seen) hnd]
      congr 1
      apply List.filter_congr
      intro q hq
      have hqne : q.url ≠ p.url := by
        intro he
        exact hnotmem (he ▸ List.mem_map.mpr ⟨q, hq, rfl⟩)
      show (!(q.url == p.url || seen.contains q.url)) = (!(seen.contains q.url))
      rw [beq_eq_false_iff_ne.mpr hqne]
      rfl

theorem save_into_absent (b : List RawProduct) (su ts : String) :
    (saveProductsIncremental b su ts .absent).products = normalizeBatch b su ts := by
  rw [save_products_eq]
  simp [loadExistingProducts, urlsOf]

theorem normalizeBatch_append (S1 S2 : List RawProduct) (su ts : String) :
    normalizeBatch (S1 ++ S2) su ts = normalizeBatch S1 su ts ++ normalizeBatch S2 su ts := by
  unfold normalizeBatch
  rw [List.filter_append, List.map_append]

/-- C3 (amended): for record sets whose urls are pairwise distinct
within each input, saving S1 on an absent file and then S1 ++ S2 yields
a products list equal to the first-occurrence url-deduplicated union of
the two normalized batches, and the stored totalProducts equals its
length.  (For a batch with an internal url duplicate the claim fails:
see the counterexample.) -/
theorem c3_two_saves_dedup_union (S1 S2 : List RawProduct) (su t1 t2 : String)
    (h1 : (S1.map RawProduct.url).Nodup) (h2 : (S2.map RawProduct.url).Nodup) :
    (saveProductsIncremental (S1 ++ S2) su t2
        (.written (saveProductsIncremental S1 su t1 .absent))).products
      = dedupByUrl (normalizeBatch S1 su t1 ++ normalizeBatch (S1 ++ S2) su t2)
    ∧ (saveProductsIncremental (S1 ++ S2) su t2
        (.written (saveProductsIncremental S1 su t1 .absent))).metadata.totalProducts
      = (saveProductsIncremental (S1 ++ S2) su t2
          (.written (saveProductsIncremental S1 su t1 .absent))).products.length := by
  have hN1nd : (urlsOf (normalizeBatch S1 su t1)).Nodup := by
    rw [urlsOf_normalizeBatch]
    exact List.Nodup.sublist (List.Sublist.map RawProduct.url (List.filter_sublist S1)) h1
  have hN2nd : (urlsOf (normalizeBatch S2 su t2)).Nodup := by
    rw [urlsOf_normalizeBatch]
    exact List.Nodup.sublist (List.Sublist.map RawProduct.url (List.filter_sublist S2)) h2
  have hurls_t : urlsOf (normalizeBatch S1 su t2) = urlsOf (normalizeBatch S1 su t1) := by
    rw [urlsOf_normalizeBatch, urlsOf_normalizeBatch]
  have hLHS : (saveProductsIncremental (S1 ++ S2) su t2
        (.written (saveProductsIncremental S1 su t1 .absent))).products
      = normalizeBatch S1 su t1 ++ (normalizeBatch S2 su t2).filter
          (fun p => !((urlsOf (normalizeBatch S1 su t1)).contains p.url)) := by
    rw [save_products_eq]
    rw [show loadExistingProducts (.written (saveProductsIncremental S1 su t1 .absent))
          = (saveProductsIncremental S1 su t1 .absent).products from rfl,
      save_into_absent]
    congr 1
    rw [normalizeBatch_append, List.filter_append]
    rw [show (normalizeBatch S1 su t2).filter
          (fun p => !((urlsOf (normalizeBatch S1 su t1)).contains p.url)) = [] from by
        rw [List.filter_eq_nil_iff]
        intro p hp
        have hmem : p.url ∈ urlsOf (normalizeBatch S1 su t1) := by
          rw [← hurls_t]
          exact List.mem_map.mpr ⟨p, hp, rfl⟩
        simp [hmem]]
    rw [List.nil_append]
  have hRHS : dedupByUrl (normalizeBatch S1 su t1 ++ normalizeBatch (S1 ++ S2) su t2)
      = normalizeBatch S1 su t1 ++ (normalizeBatch S2 su t2).filter
          (fun p => !((urlsOf (normalizeBatch S1 su t1)).contains p.url)) := by
    unfold dedupByUrl
    rw [dedupByUrlAux_fresh (normalizeBatch S1 su t1) (normalizeBatch (S1 ++ S2) su t2) []
        (fun p _ => rfl) hN1nd,
      List.append_nil]
    congr 1
    rw [normalizeBatch_append]
    rw [dedupByUrlAux_skip _ _ _ (by
      intro p hp
      have hmem : p.url ∈ urlsOf (normalizeBatch S1 su t1) := by
        rw [← hurls_t]
        exact List.mem_map.mpr ⟨p, hp, rfl⟩
      simp [hmem])]
    rw [dedupByUrlAux_filter _ _ hN2nd]
    apply List.filter_congr
    intro q _
    rw [show (urlsOf (normalizeBatch S1 su t1)).reverse.contains q.url
          = (urlsOf (normalizeBatch S1 su t1)).contains q.url from by simp]
  exact ⟨hLHS.trans hRHS.symm, rfl⟩

/-- C3 witness: saving the batch holding `dupA` and then the batch
holding `dupA` and `recC` (overlapping by url `u`) produces exactly the
url-deduplicated union with matching totalProducts. -/
theorem c3_two_saves_dedup_union_witness :
    (saveProductsIncremental ([dupA] ++ [recC]) "s" "t2"
        (.written (saveProductsIncremental [dupA] "s" "t1" .absent))).products
      = dedupByUrl (normalizeBatch [dupA] "s" "t1" ++ normalizeBatch ([dupA] ++ [recC]) "s" "t2")
    ∧ (saveProductsIncremental ([dupA] ++ [recC]) "s" "t2"
        (.written (saveProductsIncremental [dupA] "s" "t1" .absent))).metadata.totalProducts
      = (saveProductsIncremental ([dupA] ++ [recC]) "s" "t2"
          (.written (saveProductsIncremental [dupA] "s" "t1" .absent))).products.length :=
  c3_two_saves_dedup_union [dupA] [recC] "s" "t1" "t2" (by decide) (by decide)

/-- C3 counterexample: when the first record set itself contains two
records with the same url, the resulting products list is not the
url-deduplicated union of the two inputs, so the claim fails without a
distinctness assumption on each input. -/
theorem c3_duplicate_urls_cex :
    ¬ ((saveProductsIncremental ([dupA, dupB] ++ []) "s" "t2"
        (.written (saveProductsIncremental [dupA, dupB] "s" "t1" .absent))).products
      = dedupByUrl (normalizeBatch [dupA, dupB] "s" "t1"
          ++ normalizeBatch ([dupA, dupB] ++ []) "s" "t2")) := by decide

theorem scrollLoop_succ (counts : Nat → Nat) (fuel i : Nat) (s : ScrollState) :
    scrollLoop counts (fuel+1) i s
      = if 6 ≤ (scrollStep (counts i) s).stable then i + 1
        else scrollLoop counts fuel (i+1) (scrollStep (counts i) s) := rfl

theorem stateAt_prev (counts : Nat → Nat) (i : Nat) :
    (stateAt counts (i+1)).prev = (counts i : Int) := by
  show (scrollStep (counts i) (stateAt counts i)).prev = _
  unfold scrollStep
  split <;> rfl

theorem runLen_succ (counts : Nat → Nat) (k : Nat) :
    runLen counts (k+1) = if counts (k+1) ≤ counts k then runLen counts k + 1 else 0 := rfl

theorem stateAt_stable (counts : Nat → Nat) :
    ∀ i, (stateAt counts (i+1)).stable = runLen counts i := by
  intro i
  induction i with
  | zero =>
    show (scrollStep (counts 0) { prev := -1, stable := 0 }).stable = 0
    unfold scrollStep
    rw [if_neg (by
      show ¬ ((counts 0 : Int) ≤ (-1 : Int))
      omega)]
  | succ k ih =>
    show (scrollStep (counts (k+1)) (stateAt counts (k+1))).stable = runLen counts (k+1)
    rw [runLen_succ]
    unfold scrollStep
    rw [stateAt_prev]
    by_cases h : counts (k+1) ≤ counts k
    · rw [if_pos (by exact_mod_cast h), if_pos h]
      show (stateAt counts (k+1)).stable + 1 = _
      rw [ih]
    · rw [if_neg (by exact_mod_cast h), if_neg h]

theorem scrollLoop_spec (counts : Nat → Nat) : ∀ (fuel i : Nat),
    scrollLoop counts fuel i (stateAt counts i) ≤ i + fuel
    ∧ (∀ k, i ≤ k → k + 1 < scrollLoop counts fuel i (stateAt counts i) → runLen counts k < 6)
    ∧ (scrollLoop counts fuel i (stateAt counts i) < i + fuel →
        6 ≤ runLen counts (scrollLoop counts fuel i (stateAt counts i) - 1)) := by
  intro fuel
  induction fuel with
  | zero =>
    intro i
    have h0 : scrollLoop counts 0 i (stateAt counts i) = i := rfl
    rw [h0]
    refine ⟨by omega, ?_, ?_⟩
    · intro k hik hk
      omega
    · intro h
      omega
  | succ fuel ih =>
    intro i
    have hstep : scrollStep (counts i) (stateAt counts i) = stateAt counts (i+1) := rfl
    by_cases h6 : 6 ≤ (stateAt counts (i+1)).stable
    · have hres : scrollLoop counts (fuel+1) i (stateAt counts i) = i + 1 := by
        rw [scrollLoop_succ, hstep, if_pos h6]
      rw [hres]
      refine ⟨by omega, ?_, ?_⟩
      · intro k hik hk
        omega
      · intro _
        have hs := stateAt_stable counts i
        have heq : i + 1 - 1 = i := by omega
        rw [heq]
        omega
    · have hres : scrollLoop counts (fuel+1) i (stateAt counts i)
          = scrollLoop counts fuel (i+1) (stateAt counts (i+1)) := by
        rw [scrollLoop_succ, hstep, if_neg h6]
      obtain ⟨ih1, ih2, ih3⟩ := ih (i+1)
      rw [hres]
      refine ⟨by omega, ?_, ?_⟩
      · intro k hik hk
        by_cases hki : k = i
        · subst hki
          have hs := stateAt_stable counts k
          omega
        · exact ih2 k (by omega) hk
      · intro hlt
        exact ih3 (by omega)

/-- C5: the scroll loop of loadAllProducts always terminates within 500
iterations; it never runs past an iteration ending a streak of 6
consecutive non-increasing measurements (it stops as soon as the count
has not increased for 6 consecutive iterations), any earlier-than-cap
stop is due to such a streak, and with the scroll container present
each iteration's autoScroll call issues exactly 5 scroll pulses. -/
theorem c5_scroll_loop_terminates (counts : Nat → Nat) :
    scrollIterations counts ≤ 500
    ∧ (∀ k, k + 1 < scrollIterations counts → runLen counts k < 6)
    ∧ (scrollIterations counts < 500 → 6 ≤ runLen counts (scrollIterations counts - 1))
    ∧ (∀ heights : Nat → Nat, autoScrollPulses true heights 5 = 5) := by
  obtain ⟨h1, h2, h3⟩ := scrollLoop_spec counts 500 0
  have h0 : stateAt counts 0 = { prev := -1, stable := 0 } := rfl
  rw [h0] at h1 h2 h3
  have hdef : scrollIterations counts
      = scrollLoop counts 500 0 { prev := -1, stable := 0 } := rfl
  refine ⟨?_, ?_, ?_, fun _ => rfl⟩
  · rw [hdef]
    omega
  · intro k hk
    exact h2 k (Nat.zero_le k) hk
  · intro hlt
    rw [hdef] at hlt ⊢
    exact h3 (by omega)

/-- C5 witness: for the constant measurement sequence the loop stops
early (after 7 iterations), within the cap and with a 6-long streak of
non-increasing measurements at the stop. -/
theorem c5_scroll_loop_terminates_witness :
    scrollIterations constZero ≤ 500
    ∧ 6 ≤ runLen constZero (scrollIterations constZero - 1) :=
  ⟨(c5_scroll_loop_terminates constZero).1,
   (c5_scroll_loop_terminates constZero).2.2.1 (by decide)⟩

/-- C10: a missing output file and a file with unparseable JSON both
load as the empty product list, and the next incremental save succeeds,
rewriting the file with exactly the newly extracted records; records
previously stored in a corrupt file are silently discarded. -/
theorem c10_corrupt_file_fresh_start (b : List RawProduct) (su ts : String) :
    loadExistingProducts .absent = []
    ∧ loadExistingProducts .corrupt = []
    ∧ (saveProductsIncremental b su ts .corrupt).products = normalizeBatch b su ts
    ∧ (saveProductsIncremental b su ts .absent).products = normalizeBatch b su ts := by
  refine ⟨rfl, rfl, ?_, ?_⟩ <;>
  · rw [save_products_eq]
    simp [loadExistingProducts, urlsOf]

end SMScraper
